import Mathlib

/-!
Verification of the strobe-decoding and trial/block alignment core of
`spike_sorting/utils_oe.py`.

The embedding is a direct shallow translation of the source:

* `reconstruct_8bits_words` (source lines 98-115): decodes one integer word
  per strobe index from the parallel `e_channel`/`e_state` arrays.
* `check_strobes` (source lines 118-142): diagnostic comparison of decoded
  words against the behavioral code sequence, surfaced only as log lines.
* the block-segmentation tail of `find_events_codes` (source lines 176-191):
  grouping of per-trial start/end timestamps by `np.unique` block labels.

NumPy arrays are modelled as `List Int`; array indices as `Nat`.
-/

namespace InVibe

/-- One row of the OpenEphys event table: a logic-level transition on one
digital line, with fields `channel`, `state` (1 = ON, 0 = OFF) and
`timestamp`, as consumed by `find_events_codes` (source lines 149-157). -/
structure Event where
  channel : Int
  state : Int
  timestamp : Int
deriving DecidableEq, Repr

/-- One entry of the behavioral log `bhv`, as read by `check_strobes`
(source lines 121-124) and `find_events_codes` (source lines 169-174):
`codeNumbers` is the first row of the trial's `BehavioralCodes.CodeNumbers`
field and `block` its `Block[0][0]` scalar. -/
structure Trial where
  codeNumbers : List Int
  block : Int
deriving DecidableEq, Repr

/-- Indices (in ascending order) at which the boolean test `p` holds:
the shallow embedding of `np.where(p(arr))[0]` over a 1-d array. -/
def whereB {α : Type} (p : α → Bool) : List α → List Nat
  | [] => []
  | x :: t => (if p x then [0] else []) ++ (whereB p t).map (· + 1)

/-- Indices (in ascending order) at which the array holds value `v`:
the shallow embedding of `np.where(arr == v)[0]`. -/
def whereEq (xs : List Int) (v : Int) : List Nat :=
  whereB (fun x => decide (x = v)) xs

/-- State of the last transition on channel `c` among the first `n` events,
or `0` (the initial register content) if there is none.  This is the value
the decoder's register holds for channel `c` once `n` events have been
scanned; it is the specification-level summary of source lines 107-111,
given that `idx_old` in `reconstruct_8bits_words` is initialized to `0`
and never reassigned, so every scan window is the full prefix
`e_channel[0:idx_strobe]`. -/
def sample (e_channel e_state : List Int) (n : Nat) (c : Int) : Int :=
  let idx := whereEq (e_channel.take n) c
  if hne : idx = [] then 0 else e_state.getD (idx.getLast hne) 0

/-- Source lines 107-111: one iteration of the inner `for ch in np.arange(0,7)`
loop.  `idx_ch = np.where(e_channel[0:idx_strobe] == ch+1)[0]` (the slice
starts at `idx_old = 0`, which is never reassigned, so the relative indices
returned by `np.where` coincide with absolute indices into `e_state`), then
`current_8code[7-ch] = e_state[idx_ch[-1]] if idx_ch.size != 0 else
current_8code[7-ch]`. -/
def update_ch (e_channel e_state : List Int) (idx_strobe : Nat)
    (reg : List Int) (ch : Nat) : List Int :=
  let idx_ch := whereEq (e_channel.take idx_strobe) ((ch : Int) + 1)
  reg.set (7 - ch)
    (if hne : idx_ch = [] then reg.getD (7 - ch) 0
     else e_state.getD (idx_ch.getLast hne) 0)

/-- Source lines 105-111: the inner loop over data channels `ch = 0..6`. -/
def strobe_step (e_channel e_state : List Int) (reg : List Int)
    (idx_strobe : Nat) : List Int :=
  (List.range 7).foldl (update_ch e_channel e_state idx_strobe) reg

/-- Source line 113: `int("".join([str(item) for item in current_8code]), 2)`,
reading the 8-element register MSB-first as a big-endian binary numeral.
For register digits in `{0, 1}` (the only digits Python's `int(_, 2)`
accepts) the fold below computes exactly that numeral. -/
def wordOfReg (reg : List Int) : Int :=
  reg.foldl (fun a b => 2 * a + b) 0

/-- The register contents after the decoder has scanned the first `n` events:
position `0` (the MSB, reserved for the strobe line) still holds its initial
`0`, and position `7 - (c - 1)` holds the channel-`c` sample.  This is the
closed form proved for the decoder's loop state. -/
def regAt (e_channel e_state : List Int) (n : Nat) : List Int :=
  [0, sample e_channel e_state n 7, sample e_channel e_state n 6,
   sample e_channel e_state n 5, sample e_channel e_state n 4,
   sample e_channel e_state n 3, sample e_channel e_state n 2,
   sample e_channel e_state n 1]

/-- Source lines 98-115: `reconstruct_8bits_words(real_strobes, e_channel,
e_state)`.  The fold state is the pair (words emitted so far,
`current_8code`); `idx_old` is initialized to `0` in the source and never
reassigned, so it is a constant and is not threaded through the state. -/
def reconstruct_8bits_words (real_strobes : List Nat)
    (e_channel e_state : List Int) : List Int :=
  (real_strobes.foldl
    (fun (acc : List Int × List Int) idx_strobe =>
      let reg := strobe_step e_channel e_state acc.2 idx_strobe
      (acc.1 ++ [wordOfReg reg], reg))
    (([] : List Int), List.replicate 8 (0 : Int))).1

/-- Modelled from the spec (section 4.1, Algorithm): the scan window for one
strobe, for channel `c` — the indices of channel-`c` transitions strictly
between the previous strobe's index (exclusive; for the first strobe the
scan covers every index below the current strobe, matching the spec's edge
case "the first strobe uses the all-zero initial register for any line with
no transition before it") and the current strobe's index (exclusive). -/
def spec_window (e_channel : List Int) (prev : Option Nat) (cur : Nat)
    (c : Int) : List Nat :=
  (whereEq (e_channel.take cur) c).filter
    (fun j => match prev with
      | none => true
      | some p => decide (p < j))

/-- Modelled from the spec (section 4.1, Algorithm): set register bit
`7 - (ch - 1)` (here `ch` runs over `0..6` so the channel is `ch + 1` and
the position `7 - ch`) to the state of the last transition in the window,
leaving it unchanged when the window is empty. -/
def spec_update_ch (e_channel e_state : List Int) (prev : Option Nat)
    (cur : Nat) (reg : List Int) (ch : Nat) : List Int :=
  let w := spec_window e_channel prev cur ((ch : Int) + 1)
  reg.set (7 - ch)
    (if hne : w = [] then reg.getD (7 - ch) 0
     else e_state.getD (w.getLast hne) 0)

/-- Modelled from the spec (section 4.1, Algorithm): update all seven data
bits for one strobe. -/
def spec_step (e_channel e_state : List Int) (prev : Option Nat) (cur : Nat)
    (reg : List Int) : List Int :=
  (List.range 7).foldl (spec_update_ch e_channel e_state prev cur) reg

/-- Modelled from the spec (section 4.1, Algorithm): an 8-bit register
initialized to all zeros persisting across the whole call; for each strobe
in order, update the seven data bits from the window since the previous
strobe and emit the register, read MSB-first, as that strobe's code word. -/
def spec_decode (strobes : List Nat) (e_channel e_state : List Int) :
    List Int :=
  (strobes.foldl
    (fun (acc : List Int × List Int × Option Nat) cur =>
      let reg := spec_step e_channel e_state acc.2.2 cur acc.2.1
      (acc.1 ++ [wordOfReg reg], reg, some cur))
    (([] : List Int), List.replicate 8 (0 : Int), (none : Option Nat))).1

/-- Source lines 149-155: `idx_real_strobes = np.where(np.logical_and(
np.logical_and(events.channel == 8, events.state == 1),
events.timestamp > 0))[0]`. -/
def real_strobe_idx (events : List Event) : List Nat :=
  whereB
    (fun ev =>
      decide (ev.channel = 8) && decide (ev.state = 1) &&
        decide (0 < ev.timestamp))
    events

/-- Shallow embedding of `np.unique` over a 1-d array: the distinct values
in ascending sorted order. -/
def np_unique (xs : List Int) : List Int :=
  xs.dedup.insertionSort (· ≤ ·)

/-- Source lines 176-191: the block-segmentation tail of
`find_events_codes`.  For each distinct block label (in `np.unique` order),
`idx_block = np.where(blocks == block)[0]` and the slices
`start_trials[idx_block]`, `end_trials[idx_block]` are appended.  NumPy's
fancy indexing raises on an out-of-range index; the embedding uses `getD`
and is only applied where every index is in range (the per-label indices
are positions in `blocks`, and the claims supply timestamp arrays of
matching length). -/
def find_events_codes_blocks (blocks : List Int)
    (start_trials end_trials : List Int) :
    List (List Int) × List (List Int) × List Int :=
  let uniq := np_unique blocks
  (uniq.map (fun b => (whereEq blocks b).map (fun i => start_trials.getD i 0)),
   uniq.map (fun b => (whereEq blocks b).map (fun i => end_trials.getD i 0)),
   uniq)

/-- Source line 121: `trials = list(bhv.keys())[1:-1]` — the behavioral
record with its first and last (sentinel) entries stripped. -/
def bhv_trials (bhv : List Trial) : List Trial :=
  (bhv.drop 1).dropLast

/-- Source lines 120-124: the behavioral code sequence, the concatenation in
trial order of the first `CodeNumbers` row of every non-sentinel trial. -/
def bhv_code_seq (bhv : List Trial) : List Int :=
  ((bhv_trials bhv).map Trial.codeNumbers).flatten

/-- Source lines 118-142: `check_strobes(bhv, full_word, real_strobes)`.
The function only logs; it is modelled as returning the list of log lines.
The single way it can raise on data (as opposed to malformed structure) is
`np.concatenate` applied to an empty list of per-trial code arrays, which
raises `ValueError` when the stripped trial list is empty; that case is the
`.error` branch.  `np.sum(bhv_codes - full_word)` is the sum of elementwise
differences of the two equal-length arrays (the subtraction only executes
in the equal-length branch). -/
def check_strobes (bhv : List Trial) (full_word : List Int)
    (real_strobes : List Nat) : Except String (List String) :=
  if (bhv_trials bhv).isEmpty then
    .error "ValueError: need at least one array to concatenate"
  else
    let bhv_codes := bhv_code_seq bhv
    let log1 :=
      if full_word.length ≠ real_strobes.length then
        ["Warning, Strobe and codes number do not match",
         "Strobes = " ++ toString real_strobes.length,
         "codes number = " ++ toString full_word.length]
      else
        ["Strobe and codes number do match",
         "Strobes = " ++ toString real_strobes.length,
         "codes number = " ++ toString full_word.length]
    let log2 :=
      if full_word.length ≠ bhv_codes.length then
        ["Warning, ML and OE code numbers do not match"]
      else
        "ML and OE code numbers do match" ::
          (if ((bhv_codes.zip full_word).map (fun p => p.1 - p.2)).sum ≠ 0
           then ["Warning, ML and OE codes are different"]
           else ["ML and OE codes are the same"])
    .ok (log1 ++ log2)

/-- Whether a `check_strobes` run completed without raising. -/
def isOkExc (x : Except String (List String)) : Bool :=
  match x with
  | .ok _ => true
  | .error _ => false

/-- The log lines of a completed `check_strobes` run. -/
def logsOf (x : Except String (List String)) : List String :=
  match x with
  | .ok l => l
  | .error _ => []

/-! ### Basic facts about `whereB` / `whereEq` -/

theorem whereB_append {α : Type} (p : α → Bool) (xs ys : List α) :
    whereB p (xs ++ ys) = whereB p xs ++ (whereB p ys).map (· + xs.length) := by
  induction xs with
  | nil => simp [whereB]
  | cons x t ih =>
    show (if p x then [0] else []) ++ (whereB p (t ++ ys)).map (· + 1)
        = ((if p x then [0] else []) ++ (whereB p t).map (· + 1))
          ++ (whereB p ys).map (· + (t.length + 1))
    have hfun : ((fun x => x + 1) ∘ fun x => x + t.length)
        = (fun x : Nat => x + (t.length + 1)) := by
      funext a
      simp only [Function.comp_apply]
      omega
    rw [ih, List.map_append, List.map_map, hfun, List.append_assoc]

theorem of_mem_whereB {α : Type} {p : α → Bool} {xs : List α} {j : Nat}
    (h : j ∈ whereB p xs) : ∃ hj : j < xs.length, p (xs.get ⟨j, hj⟩) = true := by
  induction xs generalizing j with
  | nil => simp [whereB] at h
  | cons x t ih =>
    simp only [whereB, List.mem_append] at h
    rcases h with h | h
    · by_cases hx : p x
      · simp only [hx, if_true, List.mem_singleton] at h
        subst h
        exact ⟨Nat.succ_pos _, hx⟩
      · simp [hx] at h
    · rcases List.mem_map.mp h with ⟨k, hk, rfl⟩
      rcases ih hk with ⟨hlt, hp⟩
      exact ⟨Nat.succ_lt_succ hlt, hp⟩

theorem of_mem_whereEq {xs : List Int} {v : Int} {j : Nat}
    (h : j ∈ whereEq xs v) : ∃ hj : j < xs.length, xs.get ⟨j, hj⟩ = v := by
  rcases of_mem_whereB h with ⟨hlt, hp⟩
  exact ⟨hlt, of_decide_eq_true hp⟩

theorem whereEq_append (xs ys : List Int) (v : Int) :
    whereEq (xs ++ ys) v = whereEq xs v ++ (whereEq ys v).map (· + xs.length) :=
  whereB_append _ xs ys

theorem getLast_eq_of_eq {α : Type} {l₁ l₂ : List α} (h : l₁ = l₂)
    (h₁ : l₁ ≠ []) (h₂ : l₂ ≠ []) : l₁.getLast h₁ = l₂.getLast h₂ := by
  subst h
  rfl

theorem whereEq_split (l : List Int) (v : Int) (k : Nat) :
    whereEq l v =
      whereEq (l.take k) v ++
        (whereEq (l.drop k) v).map (· + (l.take k).length) := by
  conv_lhs => rw [← List.take_append_drop k l]
  exact whereB_append _ _ _

theorem whereEq_take_of_take_nil {e : List Int} {v : Int} {m n : Nat}
    (hmn : m ≤ n) (h : whereEq (e.take n) v = []) :
    whereEq (e.take m) v = [] := by
  have hsplit := whereEq_split (e.take n) v m
  rw [List.take_take, Nat.min_eq_left hmn] at hsplit
  rw [h] at hsplit
  exact (List.append_eq_nil.mp hsplit.symm).1

/-- The channel-`c` sample is unchanged by extending the scanned window,
provided the window already held a transition or the extension adds none:
the decoder's conditional assignment (source lines 109-111) maps the
register value for window `m` to the register value for window `n`. -/
theorem sample_step (e st : List Int) {m n : Nat} (hmn : m ≤ n) (c : Int) :
    (if hne : whereEq (e.take n) c = [] then sample e st m c
     else st.getD ((whereEq (e.take n) c).getLast hne) 0)
    = sample e st n c := by
  by_cases hn : whereEq (e.take n) c = []
  · have hm := whereEq_take_of_take_nil hmn hn
    simp [hn, sample, hm]
  · simp [hn, sample]

/-! ### Closed form of the decoder's register evolution -/

/-- Unfolding of the inner channel loop (source lines 105-111) on an
explicit 8-element register: channel `ch + 1` writes position `7 - ch`,
so position `q` (for `q` in `1..7`) receives channel `8 - q`, and
position `0` is untouched. -/
theorem strobe_step_explicit (e st : List Int) (n : Nat)
    (r0 r1 r2 r3 r4 r5 r6 r7 : Int) :
    strobe_step e st [r0, r1, r2, r3, r4, r5, r6, r7] n =
      [r0,
       (if hne : whereEq (e.take n) 7 = [] then r1
        else st.getD ((whereEq (e.take n) 7).getLast hne) 0),
       (if hne : whereEq (e.take n) 6 = [] then r2
        else st.getD ((whereEq (e.take n) 6).getLast hne) 0),
       (if hne : whereEq (e.take n) 5 = [] then r3
        else st.getD ((whereEq (e.take n) 5).getLast hne) 0),
       (if hne : whereEq (e.take n) 4 = [] then r4
        else st.getD ((whereEq (e.take n) 4).getLast hne) 0),
       (if hne : whereEq (e.take n) 3 = [] then r5
        else st.getD ((whereEq (e.take n) 3).getLast hne) 0),
       (if hne : whereEq (e.take n) 2 = [] then r6
        else st.getD ((whereEq (e.take n) 2).getLast hne) 0),
       (if hne : whereEq (e.take n) 1 = [] then r7
        else st.getD ((whereEq (e.take n) 1).getLast hne) 0)] :=
  rfl

theorem regAt_zero (e st : List Int) : regAt e st 0 = List.replicate 8 0 :=
  rfl

/-- One strobe of the decoder maps the closed-form register for window `m`
to the closed-form register for window `n`, for any `m ≤ n`. -/
theorem strobe_step_regAt (e st : List Int) {m n : Nat} (hmn : m ≤ n) :
    strobe_step e st (regAt e st m) n = regAt e st n := by
  show strobe_step e st
      [0, sample e st m 7, sample e st m 6, sample e st m 5, sample e st m 4,
       sample e st m 3, sample e st m 2, sample e st m 1] n = regAt e st n
  rw [strobe_step_explicit, sample_step e st hmn 7, sample_step e st hmn 6,
    sample_step e st hmn 5, sample_step e st hmn 4, sample_step e st hmn 3,
    sample_step e st hmn 2, sample_step e st hmn 1]
  rfl

theorem recon_aux (e st : List Int) :
    ∀ (strobes : List Nat) (m : Nat) (acc : List Int),
    (m :: strobes).Chain' (· ≤ ·) →
    (strobes.foldl
      (fun (a : List Int × List Int) idx_strobe =>
        let reg := strobe_step e st a.2 idx_strobe
        (a.1 ++ [wordOfReg reg], reg)) (acc, regAt e st m)).1
      = acc ++ strobes.map (fun s => wordOfReg (regAt e st s))
  | [], _, acc, _ => by simp
  | s :: t, m, acc, h => by
    have h1 : m ≤ s := (List.chain'_cons.mp h).1
    have h2 : (s :: t).Chain' (· ≤ ·) := (List.chain'_cons.mp h).2
    simp only [List.foldl_cons, List.map_cons]
    rw [strobe_step_regAt e st h1]
    rw [recon_aux e st t s (acc ++ [wordOfReg (regAt e st s)]) h2]
    simp

/-- Closed form of `reconstruct_8bits_words`: for an ordered strobe-index
sequence, the word emitted at strobe `s` is the register determined by the
event prefix below `s`, read as a binary numeral. -/
theorem reconstruct_eq_map (e st : List Int) (strobes : List Nat)
    (h : strobes.Chain' (· ≤ ·)) :
    reconstruct_8bits_words strobes e st
      = strobes.map (fun s => wordOfReg (regAt e st s)) := by
  have h0 : (0 :: strobes).Chain' (· ≤ ·) := by
    cases strobes with
    | nil => simp
    | cons a t => exact List.chain'_cons.mpr ⟨Nat.zero_le a, h⟩
  have := recon_aux e st strobes 0 [] h0
  unfold reconstruct_8bits_words
  rw [← regAt_zero e st]
  simpa using this

/-! ### The spec's windowed algorithm computes the same register -/

theorem spec_window_none (e : List Int) (cur : Nat) (c : Int) :
    spec_window e none cur c = whereEq (e.take cur) c := by
  show (whereEq (e.take cur) c).filter (fun _ => true) = whereEq (e.take cur) c
  simp

theorem spec_update_ch_none (e st : List Int) (cur : Nat) (reg : List Int)
    (ch : Nat) : spec_update_ch e st none cur reg ch = update_ch e st cur reg ch := by
  unfold spec_update_ch update_ch
  simp only [spec_window_none]

theorem spec_step_none (e st : List Int) (cur : Nat) (reg : List Int) :
    spec_step e st none cur reg = strobe_step e st reg cur := by
  unfold spec_step strobe_step
  have : spec_update_ch e st none cur = update_ch e st cur := by
    funext reg ch
    exact spec_update_ch_none e st cur reg ch
  rw [this]

theorem filter_lt_whereEq_take_nil (e : List Int) (p k : Nat) (c : Int)
    (hkp : k ≤ p + 1) :
    (whereEq (e.take k) c).filter (fun j => decide (p < j)) = [] := by
  rw [List.filter_eq_nil_iff]
  intro j hj
  rcases of_mem_whereEq hj with ⟨hlt, _⟩
  have : j < k := lt_of_lt_of_le hlt (List.length_take_le k e)
  simp only [decide_eq_true_eq]
  omega

/-- The spec's scan window for a non-initial strobe, computed: the channel-`c`
indices of the slice strictly between the previous strobe `p` and the
current strobe `cur`, shifted back to absolute positions. -/
theorem spec_window_some (e : List Int) {p cur : Nat} (hlt : p < cur) (c : Int) :
    spec_window e (some p) cur c =
      (whereEq ((e.take cur).drop (p + 1)) c).map (· + (e.take (p + 1)).length) := by
  show (whereEq (e.take cur) c).filter (fun j => decide (p < j)) = _
  have hsplit := whereEq_split (e.take cur) c (p + 1)
  rw [List.take_take, Nat.min_eq_left hlt] at hsplit
  rw [hsplit, List.filter_append, filter_lt_whereEq_take_nil e p (p + 1) c le_rfl]
  rw [List.nil_append]
  by_cases hlen : p + 1 ≤ e.length
  · have hL : (e.take (p + 1)).length = p + 1 := by
      simp [List.length_take, Nat.min_eq_left hlen]
    rw [List.filter_eq_self.mpr]
    intro a ha
    rcases List.mem_map.mp ha with ⟨k, _, rfl⟩
    simp only [hL, decide_eq_true_eq]
    omega
  · have hd : (e.take cur).drop (p + 1) = [] := by
      apply List.drop_eq_nil_of_le
      have h1 : (List.take cur e).length = min cur e.length := List.length_take cur e
      omega
    simp [hd, whereEq, whereB]

theorem whereEq_take_succ_of_ne (e : List Int) (p : Nat) (c : Int)
    (h8 : e.getD p 8 = 8) (hc : c ≠ 8) :
    whereEq (e.take (p + 1)) c = whereEq (e.take p) c := by
  rw [List.take_succ, whereEq_append]
  rcases Nat.lt_or_ge p e.length with hp | hp
  · have hval : e[p]? = some (e.get ⟨p, hp⟩) := by
      simp [List.getElem?_eq_getElem hp]
    have hv8 : e.get ⟨p, hp⟩ = 8 := by
      rw [List.getD_eq_getElem?_getD, List.getElem?_eq_getElem hp] at h8
      exact h8
    rw [hval, hv8]
    have hnil : whereEq (Option.toList (some (8 : Int))) c = [] := by
      simp [whereEq, whereB, hc.symm]
    rw [hnil]
    simp
  · have hnone : e[p]? = none := List.getElem?_eq_none hp
    simp [hnone, whereEq, whereB]

/-- The spec's conditional update for a non-initial strobe maps the
channel-`c` sample for the previous strobe's window to the sample for the
current strobe's window, provided the event at the previous strobe index is
on the strobe line (channel 8) and `c` is a data channel. -/
theorem spec_sample_step (e st : List Int) {p cur : Nat} (hpc : p ≤ cur)
    (h8 : e.getD p 8 = 8) (c : Int) (hc1 : 1 ≤ c) (hc7 : c ≤ 7) :
    (if hne : spec_window e (some p) cur c = [] then sample e st p c
     else st.getD ((spec_window e (some p) cur c).getLast hne) 0)
    = sample e st cur c := by
  rcases Nat.lt_or_ge p cur with hlt | hge
  · have hw := spec_window_some e hlt c
    by_cases hmid : whereEq ((e.take cur).drop (p + 1)) c = []
    · have hwin : spec_window e (some p) cur c = [] := by simp [hw, hmid]
      have hcur : whereEq (e.take cur) c = whereEq (e.take p) c := by
        have hsplit := whereEq_split (e.take cur) c (p + 1)
        rw [List.take_take, Nat.min_eq_left hlt] at hsplit
        rw [hmid] at hsplit
        simp only [List.map_nil, List.append_nil] at hsplit
        rw [hsplit, whereEq_take_succ_of_ne e p c h8 (by omega)]
      simp only [hwin, dif_pos]
      unfold sample
      simp only [hcur]
    · have hwin : spec_window e (some p) cur c ≠ [] := by
        simp [hw, hmid]
      rw [dif_neg hwin]
      have hsplit := whereEq_split (e.take cur) c (p + 1)
      rw [List.take_take, Nat.min_eq_left hlt] at hsplit
      have hcurne : whereEq (e.take cur) c ≠ [] := by
        rw [hsplit]
        simp [hmid]
      unfold sample
      rw [dif_neg hcurne]
      congr 1
      have hmapne : (whereEq ((e.take cur).drop (p + 1)) c).map
          (· + (e.take (p + 1)).length) ≠ [] := by
        simp [hmid]
      have happne : whereEq (e.take (p + 1)) c ++
          (whereEq ((e.take cur).drop (p + 1)) c).map
            (· + (e.take (p + 1)).length) ≠ [] := by
        simp [hmid]
      rw [getLast_eq_of_eq hw hwin hmapne,
        getLast_eq_of_eq hsplit hcurne happne,
        List.getLast_append' _ _ hmapne]
  · have hpcur : p = cur := Nat.le_antisymm hpc hge
    subst hpcur
    have hwin : spec_window e (some p) p c = [] := by
      show (whereEq (e.take p) c).filter (fun j => decide (p < j)) = []
      exact filter_lt_whereEq_take_nil e p p c (by omega)
    simp [hwin]

/-- Unfolding of the spec's channel loop on an explicit 8-element register:
the same position assignment as the decoder's, with the windowed scan. -/
theorem spec_step_explicit (e st : List Int) (prev : Option Nat) (cur : Nat)
    (r0 r1 r2 r3 r4 r5 r6 r7 : Int) :
    spec_step e st prev cur [r0, r1, r2, r3, r4, r5, r6, r7] =
      [r0,
       (if hne : spec_window e prev cur 7 = [] then r1
        else st.getD ((spec_window e prev cur 7).getLast hne) 0),
       (if hne : spec_window e prev cur 6 = [] then r2
        else st.getD ((spec_window e prev cur 6).getLast hne) 0),
       (if hne : spec_window e prev cur 5 = [] then r3
        else st.getD ((spec_window e prev cur 5).getLast hne) 0),
       (if hne : spec_window e prev cur 4 = [] then r4
        else st.getD ((spec_window e prev cur 4).getLast hne) 0),
       (if hne : spec_window e prev cur 3 = [] then r5
        else st.getD ((spec_window e prev cur 3).getLast hne) 0),
       (if hne : spec_window e prev cur 2 = [] then r6
        else st.getD ((spec_window e prev cur 2).getLast hne) 0),
       (if hne : spec_window e prev cur 1 = [] then r7
        else st.getD ((spec_window e prev cur 1).getLast hne) 0)] :=
  rfl

/-- One spec strobe update maps the closed-form register for the previous
strobe `p` to the closed-form register for the current strobe. -/
theorem spec_step_regAt (e st : List Int) {p cur : Nat} (hpc : p ≤ cur)
    (h8 : e.getD p 8 = 8) :
    spec_step e st (some p) cur (regAt e st p) = regAt e st cur := by
  show spec_step e st (some p) cur
      [0, sample e st p 7, sample e st p 6, sample e st p 5, sample e st p 4,
       sample e st p 3, sample e st p 2, sample e st p 1] = regAt e st cur
  rw [spec_step_explicit,
    spec_sample_step e st hpc h8 7 (by norm_num) (by norm_num),
    spec_sample_step e st hpc h8 6 (by norm_num) (by norm_num),
    spec_sample_step e st hpc h8 5 (by norm_num) (by norm_num),
    spec_sample_step e st hpc h8 4 (by norm_num) (by norm_num),
    spec_sample_step e st hpc h8 3 (by norm_num) (by norm_num),
    spec_sample_step e st hpc h8 2 (by norm_num) (by norm_num),
    spec_sample_step e st hpc h8 1 (by norm_num) (by norm_num)]
  rfl

theorem spec_aux (e st : List Int) :
    ∀ (strobes : List Nat) (p : Nat) (acc : List Int),
    (p :: strobes).Chain' (· ≤ ·) →
    e.getD p 8 = 8 →
    (∀ s ∈ strobes, e.getD s 8 = 8) →
    (strobes.foldl
      (fun (a : List Int × List Int × Option Nat) cur =>
        let reg := spec_step e st a.2.2 cur a.2.1
        (a.1 ++ [wordOfReg reg], reg, some cur)) (acc, regAt e st p, some p)).1
      = acc ++ strobes.map (fun s => wordOfReg (regAt e st s))
  | [], _, acc, _, _, _ => by simp
  | s :: t, p, acc, hch, hp8, hstr => by
    have h1 : p ≤ s := (List.chain'_cons.mp hch).1
    have h2 : (s :: t).Chain' (· ≤ ·) := (List.chain'_cons.mp hch).2
    have hs8 : e.getD s 8 = 8 := hstr s (List.mem_cons_self s t)
    have ht8 : ∀ x ∈ t, e.getD x 8 = 8 := fun x hx =>
      hstr x (List.mem_cons_of_mem s hx)
    simp only [List.foldl_cons, List.map_cons]
    rw [spec_step_regAt e st h1 hp8]
    rw [spec_aux e st t s (acc ++ [wordOfReg (regAt e st s)]) h2 hs8 ht8]
    simp

/-- Closed form of the spec's windowed decode: for an ordered strobe-index
sequence whose indices point at channel-8 events, it emits the same
prefix-determined words as the decoder's closed form. -/
theorem spec_decode_eq_map (e st : List Int) (strobes : List Nat)
    (h : strobes.Chain' (· ≤ ·)) (h8 : ∀ s ∈ strobes, e.getD s 8 = 8) :
    spec_decode strobes e st
      = strobes.map (fun s => wordOfReg (regAt e st s)) := by
  cases strobes with
  | nil => rfl
  | cons s t =>
    have h2 : (s :: t).Chain' (· ≤ ·) := h
    have hs8 : e.getD s 8 = 8 := h8 s (List.mem_cons_self s t)
    have ht8 : ∀ x ∈ t, e.getD x 8 = 8 := fun x hx =>
      h8 x (List.mem_cons_of_mem s hx)
    unfold spec_decode
    simp only [List.foldl_cons, List.map_cons]
    have hfirst : spec_step e st none s (List.replicate 8 0) = regAt e st s := by
      rw [← regAt_zero e st, spec_step_none]
      exact strobe_step_regAt e st (Nat.zero_le s)
    rw [hfirst]
    have haux := spec_aux e st t s ([] ++ [wordOfReg (regAt e st s)]) h2 hs8 ht8
    simpa using haux

theorem getD_of_lt {α : Type} (l : List α) (j : Nat) (d : α)
    (h : j < l.length) : l.getD j d = l.get ⟨j, h⟩ := by
  rw [List.getD_eq_getElem?_getD, List.getElem?_eq_getElem h]
  rfl

theorem getD_map_at {α β : Type} (f : α → β) (l : List α) (k : Nat) (d : β)
    (d0 : α) (h : k < l.length) : (l.map f).getD k d = f (l.getD k d0) := by
  have hm : k < (l.map f).length := by simpa using h
  rw [getD_of_lt _ _ _ hm, getD_of_lt _ _ _ h]
  simp

/-! ### Claim theorems -/

/-- C1: for every event stream and every ordered sequence of strobe indices
(indices in nondecreasing order, each pointing at a channel-8 event when in
range), `reconstruct_8bits_words` returns exactly one code word per strobe,
and the word sequence coincides with the spec's algorithm (`spec_decode`):
an all-zero 8-bit register where, for each strobe in order and each data
line `ch` in 1..7, bit `7-(ch-1)` is set to the state of the last
channel-`ch` transition in the window since the previous strobe and left
unchanged when that window has none, the register then read MSB-first. -/
theorem reconstruct_matches_spec (e_channel e_state : List Int)
    (strobes : List Nat) (hord : strobes.Chain' (· ≤ ·))
    (h8 : ∀ s ∈ strobes, e_channel.getD s 8 = 8) :
    (reconstruct_8bits_words strobes e_channel e_state).length = strobes.length
    ∧ reconstruct_8bits_words strobes e_channel e_state
        = spec_decode strobes e_channel e_state := by
  have hc := reconstruct_eq_map e_channel e_state strobes hord
  have hs := spec_decode_eq_map e_channel e_state strobes hord h8
  refine ⟨?_, ?_⟩
  · rw [hc]
    simp
  · rw [hc, hs]

/-- Witness for C1 at the stream of the spec's end-to-end scenario:
channels `[8,1,8,2]`, states all ON, strobe indices `[0,2]`. -/
theorem reconstruct_matches_spec_witness :
    (([0, 2] : List Nat).Chain' (· ≤ ·)
      ∧ ∀ s ∈ ([0, 2] : List Nat), ([8, 1, 8, 2] : List Int).getD s 8 = 8)
    ∧ ((reconstruct_8bits_words [0, 2] [8, 1, 8, 2] [1, 1, 1, 1]).length = 2
      ∧ reconstruct_8bits_words [0, 2] [8, 1, 8, 2] [1, 1, 1, 1]
          = spec_decode [0, 2] [8, 1, 8, 2] [1, 1, 1, 1]) :=
  ⟨⟨by simp, by decide⟩,
    reconstruct_matches_spec [8, 1, 8, 2] [1, 1, 1, 1] [0, 2]
      (by simp) (by decide)⟩

/-- C6: on the event stream `[(8,1,5),(1,1,5),(8,1,15),(2,1,12)]` the strobe
selection picks indices 0 and 2 (the two channel-8 ON events with positive
timestamp), and the first decoded word is 0: the scan window for a strobe
excludes the strobe's own index, so the channel-1 event sharing timestamp 5
with the first strobe (it sits at index 1, after the strobe's index 0) does
not contribute to the first word. -/
theorem first_word_zero_at_shared_timestamp :
    real_strobe_idx
        ([⟨8, 1, 5⟩, ⟨1, 1, 5⟩, ⟨8, 1, 15⟩, ⟨2, 1, 12⟩] : List Event) = [0, 2]
    ∧ reconstruct_8bits_words
        (real_strobe_idx
          ([⟨8, 1, 5⟩, ⟨1, 1, 5⟩, ⟨8, 1, 15⟩, ⟨2, 1, 12⟩] : List Event))
        (([⟨8, 1, 5⟩, ⟨1, 1, 5⟩, ⟨8, 1, 15⟩, ⟨2, 1, 12⟩] : List Event).map
          Event.channel)
        (([⟨8, 1, 5⟩, ⟨1, 1, 5⟩, ⟨8, 1, 15⟩, ⟨2, 1, 12⟩] : List Event).map
          Event.state)
      = [0, 1] := by
  decide

theorem whereEq_take_stable (e : List Int) {s s' : Nat} (hss : s ≤ s')
    (h8 : e.getD s 8 = 8)
    (hquiet : ∀ j, j < e.length → s < j → j < s' →
      ¬(1 ≤ e.getD j 0 ∧ e.getD j 0 ≤ 7))
    (c : Int) (hc1 : 1 ≤ c) (hc7 : c ≤ 7) :
    whereEq (e.take s') c = whereEq (e.take s) c := by
  have hsplit := whereEq_split (e.take s') c s
  rw [List.take_take, Nat.min_eq_left hss] at hsplit
  have hmid : whereEq ((e.take s').drop s) c = [] := by
    rw [List.eq_nil_iff_forall_not_mem]
    intro k hk
    rcases of_mem_whereEq hk with ⟨hklt, hkval⟩
    have hlen : ((e.take s').drop s).length = min s' e.length - s := by
      simp [List.length_drop, List.length_take]
    have hsk : s + k < e.length := by omega
    have hsk' : s + k < s' := by omega
    have htk : s + k < (e.take s').length := by
      simp [List.length_take]
      omega
    have hval : ((e.take s').drop s).get ⟨k, hklt⟩ = e.get ⟨s + k, hsk⟩ := by
      have h1 : ((e.take s').drop s).get ⟨k, hklt⟩ = (e.take s').get ⟨s + k, htk⟩ := by
        simp [List.getElem_drop]
      have h2 : (e.take s').get ⟨s + k, htk⟩ = e.get ⟨s + k, hsk⟩ := by
        simp [List.getElem_take]
      rw [h1, h2]
    rw [hval] at hkval
    rcases Nat.eq_zero_or_pos k with rfl | hkpos
    · have h8v : e.get ⟨s + 0, hsk⟩ = 8 := by
        rw [getD_of_lt e s 8 (by omega)] at h8
        simpa using h8
      rw [h8v] at hkval
      omega
    · refine hquiet (s + k) hsk (by omega) hsk' ⟨?_, ?_⟩
      · rw [getD_of_lt e (s + k) 0 hsk, hkval]
        exact hc1
      · rw [getD_of_lt e (s + k) 0 hsk, hkval]
        exact hc7
  rw [hsplit, hmid]
  simp

/-- C2: for every event stream and every pair of consecutive strobes in an
ordered strobe sequence, if no data-channel (1..7) event sits at an index
strictly between the two strobe indices, the word decoded for the second
strobe equals the word decoded for the first (sample-and-hold). -/
theorem sample_and_hold (e_channel e_state : List Int) (strobes : List Nat)
    (hord : strobes.Chain' (· ≤ ·))
    (h8 : ∀ s ∈ strobes, e_channel.getD s 8 = 8)
    (k : Nat) (hk : k + 1 < strobes.length)
    (hquiet : ∀ j, j < e_channel.length → strobes.getD k 0 < j →
      j < strobes.getD (k + 1) 0 →
      ¬(1 ≤ e_channel.getD j 0 ∧ e_channel.getD j 0 ≤ 7)) :
    (reconstruct_8bits_words strobes e_channel e_state).getD (k + 1) 0
      = (reconstruct_8bits_words strobes e_channel e_state).getD k 0 := by
  have hk0 : k < strobes.length := by omega
  rw [reconstruct_eq_map _ _ _ hord, getD_map_at _ _ _ _ 0 hk,
    getD_map_at _ _ _ _ 0 hk0]
  have hss : strobes.getD k 0 ≤ strobes.getD (k + 1) 0 := by
    have hchain := List.chain'_iff_get.mp hord k (by omega)
    rw [getD_of_lt _ _ _ hk0, getD_of_lt _ _ _ hk]
    exact hchain
  have h8k : e_channel.getD (strobes.getD k 0) 8 = 8 := by
    apply h8
    rw [getD_of_lt _ _ _ hk0]
    exact strobes.get_mem k hk0
  have hsample : ∀ c : Int, 1 ≤ c → c ≤ 7 →
      sample e_channel e_state (strobes.getD (k + 1) 0) c
        = sample e_channel e_state (strobes.getD k 0) c := by
    intro c hc1 hc7
    unfold sample
    simp only [whereEq_take_stable e_channel hss h8k hquiet c hc1 hc7]
  unfold regAt
  rw [hsample 7 (by norm_num) (by norm_num),
    hsample 6 (by norm_num) (by norm_num),
    hsample 5 (by norm_num) (by norm_num),
    hsample 4 (by norm_num) (by norm_num),
    hsample 3 (by norm_num) (by norm_num),
    hsample 2 (by norm_num) (by norm_num),
    hsample 1 (by norm_num) (by norm_num)]

/-- Witness for C2: channels `[1,8,8]`, strobes at indices 1 and 2, no data
event strictly between them; both decoded words equal 1. -/
theorem sample_and_hold_witness :
    (([1, 2] : List Nat).Chain' (· ≤ ·)
      ∧ (∀ s ∈ ([1, 2] : List Nat), ([1, 8, 8] : List Int).getD s 8 = 8)
      ∧ 0 + 1 < ([1, 2] : List Nat).length
      ∧ ∀ j, j < ([1, 8, 8] : List Int).length →
          ([1, 2] : List Nat).getD 0 0 < j →
          j < ([1, 2] : List Nat).getD (0 + 1) 0 →
          ¬(1 ≤ ([1, 8, 8] : List Int).getD j 0
            ∧ ([1, 8, 8] : List Int).getD j 0 ≤ 7))
    ∧ (reconstruct_8bits_words [1, 2] [1, 8, 8] [1, 1, 1]).getD (0 + 1) 0
        = (reconstruct_8bits_words [1, 2] [1, 8, 8] [1, 1, 1]).getD 0 0 :=
  ⟨⟨by simp, by decide, by decide, by decide⟩,
    sample_and_hold [1, 8, 8] [1, 1, 1] [1, 2] (by simp) (by decide) 0
      (by decide) (by decide)⟩

/-- C5: the bit contributed by channel `c` (1..7) always occupies register
position `7 - (c - 1)` — the register's position `7-(c-1)` equals the
channel-`c` sample, and consequently each decoded word is the sum of the
channel samples weighted by `2^(c-1)` (register position `7-(c-1)` read
MSB-first has weight `2^(c-1)`).  In particular a lone `channel=1, state=1`
event before a strobe, starting from the all-zero register, decodes to
exactly 1. -/
theorem channel_bit_position (e_channel e_state : List Int)
    (strobes : List Nat) (hord : strobes.Chain' (· ≤ ·)) (k : Nat)
    (hk : k < strobes.length) :
    (∀ c : Nat, 1 ≤ c → c ≤ 7 →
      (regAt e_channel e_state (strobes.getD k 0)).getD (7 - (c - 1)) 0
        = sample e_channel e_state (strobes.getD k 0) (c : Int))
    ∧ (reconstruct_8bits_words strobes e_channel e_state).getD k 0
        = 64 * sample e_channel e_state (strobes.getD k 0) 7
          + 32 * sample e_channel e_state (strobes.getD k 0) 6
          + 16 * sample e_channel e_state (strobes.getD k 0) 5
          + 8 * sample e_channel e_state (strobes.getD k 0) 4
          + 4 * sample e_channel e_state (strobes.getD k 0) 3
          + 2 * sample e_channel e_state (strobes.getD k 0) 2
          + sample e_channel e_state (strobes.getD k 0) 1
    ∧ reconstruct_8bits_words [1] [1] [1] = [1] := by
  refine ⟨?_, ?_, by decide⟩
  · intro c hc1 hc7
    interval_cases c <;> simp [regAt]
  · rw [reconstruct_eq_map _ _ _ hord, getD_map_at _ _ _ _ 0 hk]
    unfold wordOfReg regAt
    simp only [List.foldl_cons, List.foldl_nil]
    ring

/-- Witness for C5 at the lone channel-1 event stream. -/
theorem channel_bit_position_witness :
    (([1] : List Nat).Chain' (· ≤ ·) ∧ 0 < ([1] : List Nat).length)
    ∧ (reconstruct_8bits_words [1] [1] [1]).getD 0 0
        = 64 * sample [1] [1] (([1] : List Nat).getD 0 0) 7
          + 32 * sample [1] [1] (([1] : List Nat).getD 0 0) 6
          + 16 * sample [1] [1] (([1] : List Nat).getD 0 0) 5
          + 8 * sample [1] [1] (([1] : List Nat).getD 0 0) 4
          + 4 * sample [1] [1] (([1] : List Nat).getD 0 0) 3
          + 2 * sample [1] [1] (([1] : List Nat).getD 0 0) 2
          + sample [1] [1] (([1] : List Nat).getD 0 0) 1 :=
  ⟨⟨by simp, by decide⟩,
    (channel_bit_position [1] [1] [1] (by simp) 0 (by decide)).2.1⟩

theorem st_getD_bounds (st : List Int) (hst : ∀ x ∈ st, x = 0 ∨ x = 1)
    (j : Nat) : 0 ≤ st.getD j 0 ∧ st.getD j 0 ≤ 1 := by
  rcases Nat.lt_or_ge j st.length with h | h
  · rw [getD_of_lt _ _ _ h]
    rcases hst _ (st.get_mem j h) with h0 | h0 <;>
      simp only [List.get_eq_getElem] at h0 ⊢ <;> omega
  · rw [List.getD_eq_default _ _ h]
    norm_num

theorem dite_val_bounds (st : List Int)
    (hs : ∀ j, 0 ≤ st.getD j 0 ∧ st.getD j 0 ≤ 1)
    (idx : List Nat) (b : Int) (hb : 0 ≤ b ∧ b ≤ 1) :
    0 ≤ (if hne : idx = [] then b else st.getD (idx.getLast hne) 0)
      ∧ (if hne : idx = [] then b else st.getD (idx.getLast hne) 0) ≤ 1 := by
  split
  · exact hb
  · exact hs _

theorem wordOfReg_bounds (b1 b2 b3 b4 b5 b6 b7 : Int)
    (h1 : 0 ≤ b1 ∧ b1 ≤ 1) (h2 : 0 ≤ b2 ∧ b2 ≤ 1) (h3 : 0 ≤ b3 ∧ b3 ≤ 1)
    (h4 : 0 ≤ b4 ∧ b4 ≤ 1) (h5 : 0 ≤ b5 ∧ b5 ≤ 1) (h6 : 0 ≤ b6 ∧ b6 ≤ 1)
    (h7 : 0 ≤ b7 ∧ b7 ≤ 1) :
    0 ≤ wordOfReg [0, b1, b2, b3, b4, b5, b6, b7]
      ∧ wordOfReg [0, b1, b2, b3, b4, b5, b6, b7] ≤ 127 := by
  unfold wordOfReg
  simp only [List.foldl_cons, List.foldl_nil]
  omega

theorem recon_bound_aux (e st : List Int)
    (hs : ∀ j, 0 ≤ st.getD j 0 ∧ st.getD j 0 ≤ 1) (strobes : List Nat) :
    ∀ (acc : List Int) (b1 b2 b3 b4 b5 b6 b7 : Int),
    (∀ w ∈ acc, 0 ≤ w ∧ w ≤ 127) →
    0 ≤ b1 ∧ b1 ≤ 1 → 0 ≤ b2 ∧ b2 ≤ 1 → 0 ≤ b3 ∧ b3 ≤ 1 →
    0 ≤ b4 ∧ b4 ≤ 1 → 0 ≤ b5 ∧ b5 ≤ 1 → 0 ≤ b6 ∧ b6 ≤ 1 →
    0 ≤ b7 ∧ b7 ≤ 1 →
    ∀ w ∈ (strobes.foldl
      (fun (a : List Int × List Int) idx_strobe =>
        let reg := strobe_step e st a.2 idx_strobe
        (a.1 ++ [wordOfReg reg], reg))
      (acc, [0, b1, b2, b3, b4, b5, b6, b7])).1,
      0 ≤ w ∧ w ≤ 127 := by
  induction strobes with
  | nil =>
    intro acc b1 b2 b3 b4 b5 b6 b7 hacc _ _ _ _ _ _ _
    simpa using hacc
  | cons s t ih =>
    intro acc b1 b2 b3 b4 b5 b6 b7 hacc h1 h2 h3 h4 h5 h6 h7
    simp only [List.foldl_cons]
    rw [strobe_step_explicit]
    apply ih
    · intro w hw
      rcases List.mem_append.mp hw with hw | hw
      · exact hacc w hw
      · rcases List.mem_singleton.mp hw with rfl
        exact wordOfReg_bounds _ _ _ _ _ _ _
          (dite_val_bounds st hs _ _ h1) (dite_val_bounds st hs _ _ h2)
          (dite_val_bounds st hs _ _ h3) (dite_val_bounds st hs _ _ h4)
          (dite_val_bounds st hs _ _ h5) (dite_val_bounds st hs _ _ h6)
          (dite_val_bounds st hs _ _ h7)
    · exact dite_val_bounds st hs _ _ h1
    · exact dite_val_bounds st hs _ _ h2
    · exact dite_val_bounds st hs _ _ h3
    · exact dite_val_bounds st hs _ _ h4
    · exact dite_val_bounds st hs _ _ h5
    · exact dite_val_bounds st hs _ _ h6
    · exact dite_val_bounds st hs _ _ h7

/-- C9: register position 0 (the MSB, reserved for the strobe line) is never
written during decoding, so for boolean-valued state arrays every emitted
word lies in 0..127. -/
theorem decoded_words_in_range (e_channel e_state : List Int)
    (strobes : List Nat) (hst : ∀ x ∈ e_state, x = 0 ∨ x = 1) :
    ∀ w ∈ reconstruct_8bits_words strobes e_channel e_state,
      0 ≤ w ∧ w ≤ 127 := by
  unfold reconstruct_8bits_words
  have h0 : (List.replicate 8 (0 : Int)) = [0, 0, 0, 0, 0, 0, 0, 0] := rfl
  rw [h0]
  exact recon_bound_aux e_channel e_state
    (fun j => st_getD_bounds e_state hst j) strobes [] 0 0 0 0 0 0 0
    (by simp) (by norm_num) (by norm_num) (by norm_num) (by norm_num)
    (by norm_num) (by norm_num) (by norm_num)

/-- Witness for C9 at the lone channel-1 event stream. -/
theorem decoded_words_in_range_witness :
    (∀ x ∈ ([1] : List Int), x = 0 ∨ x = 1)
    ∧ (0 ≤ (reconstruct_8bits_words [1] [1] [1]).getD 0 0
        ∧ (reconstruct_8bits_words [1] [1] [1]).getD 0 0 ≤ 127) :=
  ⟨by decide,
    decoded_words_in_range [1] [1] [1] (by decide)
      ((reconstruct_8bits_words [1] [1] [1]).getD 0 0) (by decide)⟩

/-- C3: `find_events_codes` iterates the distinct block labels in ascending
sorted order (`np.unique`) and, for each label, slices the start/end
timestamp arrays at the indices of the trials carrying that label; on block
labels `[1,1,2]` with start timestamps `[10,20,30]` (and ends
`[40,50,60]`) the groups are `[10,20]` and `[30]`, with distinct-label
array `[1,2]`. -/
theorem block_groups_sorted_slicing :
    (∀ blocks start_trials end_trials : List Int,
      ((find_events_codes_blocks blocks start_trials end_trials).2.2).Sorted
          (· < ·)
      ∧ (find_events_codes_blocks blocks start_trials end_trials).1
          = ((find_events_codes_blocks blocks start_trials end_trials).2.2).map
              (fun b => (whereEq blocks b).map (fun i => start_trials.getD i 0))
      ∧ (find_events_codes_blocks blocks start_trials end_trials).2.1
          = ((find_events_codes_blocks blocks start_trials end_trials).2.2).map
              (fun b => (whereEq blocks b).map (fun i => end_trials.getD i 0)))
    ∧ find_events_codes_blocks [1, 1, 2] [10, 20, 30] [40, 50, 60]
        = ([[10, 20], [30]], [[40, 50], [60]], [1, 2]) := by
  constructor
  · intro blocks st en
    refine ⟨?_, rfl, rfl⟩
    have hsorted : (np_unique blocks).Sorted (· ≤ ·) :=
      List.sorted_insertionSort _ _
    have hnodup : (np_unique blocks).Nodup :=
      ((List.perm_insertionSort (· ≤ ·) blocks.dedup).nodup_iff).mpr
        (List.nodup_dedup blocks)
    exact hsorted.lt_of_le hnodup
  · decide

/-- C4 is refuted: on block labels `[2,1]` the larger label 2 first appears
before the smaller label 1, yet the output groups labels as `[1,2]`
(ascending), so label 2's group (`[10]`, the trial-0 slice) comes second,
not first: grouping follows sorted label order, not first-occurrence
order. -/
theorem block_groups_not_first_occurrence :
    (([2, 1] : List Int).indexOf 2 < ([2, 1] : List Int).indexOf 1)
    ∧ (find_events_codes_blocks [2, 1] [10, 20] [30, 40]).2.2 = [1, 2]
    ∧ (find_events_codes_blocks [2, 1] [10, 20] [30, 40]).1 = [[20], [10]]
    ∧ ¬((find_events_codes_blocks [2, 1] [10, 20] [30, 40]).2.2.indexOf 2
        < (find_events_codes_blocks [2, 1] [10, 20] [30, 40]).2.2.indexOf 1) := by
  decide

/-- C4 amended: the per-block start/end lists are grouped by ascending
sorted order of the distinct block labels (the labels output is a sorted
permutation of the deduplicated label list), not by first-occurrence
order. -/
theorem block_groups_sorted_order (blocks start_trials end_trials : List Int) :
    ((find_events_codes_blocks blocks start_trials end_trials).2.2).Sorted
        (· ≤ ·)
    ∧ List.Perm
        ((find_events_codes_blocks blocks start_trials end_trials).2.2)
        blocks.dedup
    ∧ (find_events_codes_blocks blocks start_trials end_trials).1
        = ((find_events_codes_blocks blocks start_trials end_trials).2.2).map
            (fun b => (whereEq blocks b).map (fun i => start_trials.getD i 0)) :=
  ⟨List.sorted_insertionSort _ _, List.perm_insertionSort _ _, rfl⟩

theorem zip_self_sub_sum (l : List Int) :
    ((l.zip l).map (fun p => p.1 - p.2)).sum = 0 := by
  induction l with
  | nil => rfl
  | cons x t ih => simp [ih]

/-- C7: with equal-length decoded-word and behavioral-code sequences, a
non-zero sum of elementwise differences makes `check_strobes` log the
value-mismatch warning, and exact equality makes it log success; in both
cases it completes without raising. -/
theorem check_strobes_value_compare (bhv : List Trial) (full_word : List Int)
    (real_strobes : List Nat) (hne : bhv_trials bhv ≠ [])
    (hlen : full_word.length = (bhv_code_seq bhv).length) :
    ((((bhv_code_seq bhv).zip full_word).map (fun p => p.1 - p.2)).sum ≠ 0 →
      isOkExc (check_strobes bhv full_word real_strobes) = true
      ∧ "Warning, ML and OE codes are different"
          ∈ logsOf (check_strobes bhv full_word real_strobes))
    ∧ (bhv_code_seq bhv = full_word →
      isOkExc (check_strobes bhv full_word real_strobes) = true
      ∧ "ML and OE codes are the same"
          ∈ logsOf (check_strobes bhv full_word real_strobes)) := by
  have hne' : (bhv_trials bhv).isEmpty = false := by
    simpa [List.isEmpty_iff] using hne
  constructor
  · intro hsum
    simp [check_strobes, hne', hlen, hsum, isOkExc, logsOf]
  · intro heq
    have hsum : (((bhv_code_seq bhv).zip full_word).map
        (fun p => p.1 - p.2)).sum = 0 := by
      rw [heq]
      exact zip_self_sub_sum full_word
    simp [check_strobes, hne', hlen, hsum, isOkExc, logsOf]

/-- Witness for C7: behavioral codes `[3,7,5]` against decoded words
`[3,7,2]` (difference sum 3) produce the value-mismatch warning without
raising. -/
theorem check_strobes_value_compare_witness :
    (bhv_trials [⟨[], 0⟩, ⟨[3, 7, 5], 1⟩, ⟨[], 0⟩] ≠ []
      ∧ ([3, 7, 2] : List Int).length
          = (bhv_code_seq [⟨[], 0⟩, ⟨[3, 7, 5], 1⟩, ⟨[], 0⟩]).length
      ∧ (((bhv_code_seq [⟨[], 0⟩, ⟨[3, 7, 5], 1⟩, ⟨[], 0⟩]).zip
          ([3, 7, 2] : List Int)).map (fun p => p.1 - p.2)).sum ≠ 0)
    ∧ (isOkExc (check_strobes [⟨[], 0⟩, ⟨[3, 7, 5], 1⟩, ⟨[], 0⟩]
          [3, 7, 2] [0, 1, 2]) = true
      ∧ "Warning, ML and OE codes are different"
          ∈ logsOf (check_strobes [⟨[], 0⟩, ⟨[3, 7, 5], 1⟩, ⟨[], 0⟩]
              [3, 7, 2] [0, 1, 2])) :=
  ⟨⟨by decide, by decide, by decide⟩,
    (check_strobes_value_compare [⟨[], 0⟩, ⟨[3, 7, 5], 1⟩, ⟨[], 0⟩]
      [3, 7, 2] [0, 1, 2] (by decide) (by decide)).1 (by decide)⟩

/-- C8: when the decoded-word count differs from the strobe count,
`check_strobes` logs the count-mismatch warning and completes without
raising (mismatches are surfaced only through log lines). -/
theorem check_strobes_count_mismatch (bhv : List Trial) (full_word : List Int)
    (real_strobes : List Nat) (hne : bhv_trials bhv ≠ [])
    (hcnt : full_word.length ≠ real_strobes.length) :
    isOkExc (check_strobes bhv full_word real_strobes) = true
    ∧ "Warning, Strobe and codes number do not match"
        ∈ logsOf (check_strobes bhv full_word real_strobes) := by
  have hne' : (bhv_trials bhv).isEmpty = false := by
    simpa [List.isEmpty_iff] using hne
  simp [check_strobes, hne', hcnt, isOkExc, logsOf]

/-- Witness for C8: two decoded words against three strobes. -/
theorem check_strobes_count_mismatch_witness :
    (bhv_trials [⟨[], 0⟩, ⟨[3, 7], 1⟩, ⟨[], 0⟩] ≠ []
      ∧ ([3, 7] : List Int).length ≠ ([0, 1, 2] : List Nat).length)
    ∧ (isOkExc (check_strobes [⟨[], 0⟩, ⟨[3, 7], 1⟩, ⟨[], 0⟩]
          [3, 7] [0, 1, 2]) = true
      ∧ "Warning, Strobe and codes number do not match"
          ∈ logsOf (check_strobes [⟨[], 0⟩, ⟨[3, 7], 1⟩, ⟨[], 0⟩]
              [3, 7] [0, 1, 2])) :=
  ⟨⟨by decide, by decide⟩,
    check_strobes_count_mismatch [⟨[], 0⟩, ⟨[3, 7], 1⟩, ⟨[], 0⟩]
      [3, 7] [0, 1, 2] (by decide) (by decide)⟩

/-- C10: the elementwise differences of behavioral codes `[2,8,2]` and
decoded words `[3,7,2]` sum to zero, so `check_strobes` logs that the codes
are the same and emits no mismatch warning even though the sequences
differ. -/
theorem check_strobes_sum_cancellation :
    bhv_code_seq [⟨[], 0⟩, ⟨[2, 8, 2], 1⟩, ⟨[], 0⟩] = [2, 8, 2]
    ∧ ([2, 8, 2] : List Int) ≠ [3, 7, 2]
    ∧ isOkExc (check_strobes [⟨[], 0⟩, ⟨[2, 8, 2], 1⟩, ⟨[], 0⟩]
        [3, 7, 2] [0, 1, 2]) = true
    ∧ "ML and OE codes are the same"
        ∈ logsOf (check_strobes [⟨[], 0⟩, ⟨[2, 8, 2], 1⟩, ⟨[], 0⟩]
            [3, 7, 2] [0, 1, 2])
    ∧ "Warning, ML and OE codes are different"
        ∉ logsOf (check_strobes [⟨[], 0⟩, ⟨[2, 8, 2], 1⟩, ⟨[], 0⟩]
            [3, 7, 2] [0, 1, 2]) := by
  decide

end InVibe
